import Mathlib

/-!
Verification of `logic_nodes/_introduction/make_socket_svgs.py`.

The script reads the template file `sockettype_template.svg` and, for each
entry `(socket_type, color)` of the dict `COLORS`, writes the file
`sockettype_<socket_type>.svg` whose content is the template text with every
occurrence of the substring `fill:#cc4c4c;` replaced by `fill:#<color>;`
(Python `str.replace`).

Strings are modelled as `List Char`.  Python `str.replace` (with a non-empty
pattern) is modelled by `pyReplace`: scan left to right, replace each
leftmost non-overlapping occurrence of the pattern.  The run of `main` is
modelled as a transformer of an association-list file system, with a
per-file write-permission predicate standing for I/O failures.
-/

/-- Auxiliary scanner for `pyReplace`.  The `Nat` argument counts characters
still to be skipped because they belong to an occurrence of `old` that has
already been replaced; recursion is structural on the string. -/
def repAux (old new : List Char) : Nat → List Char → List Char
  | _ + 1, [] => []
  | k + 1, _ :: rest => repAux old new k rest
  | 0, [] => []
  | 0, c :: rest =>
    if old ≠ [] ∧ old <+: (c :: rest) then
      new ++ repAux old new (old.length - 1) rest
    else
      c :: repAux old new 0 rest

/-- Model of Python `s.replace(old, new)` for a non-empty `old`: every
leftmost non-overlapping occurrence of `old` in `s` is replaced by `new`.
(For `old = []` it returns `s` unchanged; the script only uses the
non-empty pattern `fill:#cc4c4c;`.) -/
def pyReplace (old new s : List Char) : List Char := repAux old new 0 s

/-- Auxiliary scanner for `pySplit`, same skip-counter scheme as `repAux`. -/
def splitAux (old : List Char) : Nat → List Char → List (List Char)
  | _ + 1, [] => [[]]
  | k + 1, _ :: rest => splitAux old k rest
  | 0, [] => [[]]
  | 0, c :: rest =>
    if old ≠ [] ∧ old <+: (c :: rest) then
      [] :: splitAux old (old.length - 1) rest
    else
      match splitAux old 0 rest with
      | [] => [[c]]
      | p :: ps => (c :: p) :: ps

/-- The decomposition of `s` along the leftmost non-overlapping occurrences
of `old`: the pieces of `s` between those occurrences, in order. -/
def pySplit (old s : List Char) : List (List Char) := splitAux old 0 s

/-- Interleave the separator `sep` between consecutive parts. -/
def joinSep (sep : List Char) : List (List Char) → List Char
  | [] => []
  | [p] => p
  | p :: q :: ps => p ++ sep ++ joinSep sep (q :: ps)

theorem joinSep_pair (sep p q : List Char) (ps : List (List Char)) :
    joinSep sep (p :: q :: ps) = p ++ sep ++ joinSep sep (q :: ps) := rfl

theorem joinSep_cons_head (sep : List Char) (c : Char) (p : List Char)
    (ps : List (List Char)) :
    joinSep sep ((c :: p) :: ps) = c :: joinSep sep (p :: ps) := by
  cases ps <;> rfl

theorem repAux_skip (old new l t : List Char) :
    repAux old new l.length (l ++ t) = repAux old new 0 t := by
  induction l with
  | nil => rfl
  | cons a l ih => simpa [repAux] using ih

theorem splitAux_skip (old l t : List Char) :
    splitAux old l.length (l ++ t) = splitAux old 0 t := by
  induction l with
  | nil => rfl
  | cons a l ih => simpa [splitAux] using ih

theorem pyReplace_nil (old new : List Char) : pyReplace old new [] = [] := rfl

theorem pyReplace_pos (old new s : List Char) (h0 : old ≠ [])
    (h : old <+: s) :
    pyReplace old new s = new ++ pyReplace old new (s.drop old.length) := by
  obtain ⟨u, rfl⟩ := h
  obtain ⟨c, old', rfl⟩ : ∃ c old', old = c :: old' :=
    match old, h0 with
    | c :: old', _ => ⟨c, old', rfl⟩
  show repAux (c :: old') new 0 (c :: (old' ++ u)) = _
  rw [repAux]
  rw [if_pos ⟨h0, ⟨u, by simp⟩⟩]
  have hskip : repAux (c :: old') new old'.length (old' ++ u)
      = repAux (c :: old') new 0 u := repAux_skip _ _ _ _
  simp only [List.length_cons, Nat.add_sub_cancel, hskip]
  have hd : List.drop (old'.length + 1) (c :: old' ++ u) = u := by
    rw [List.cons_append, List.drop_succ_cons]; exact List.drop_left _ _
  rw [hd]
  rfl

theorem pyReplace_neg (old new : List Char) (c : Char) (rest : List Char)
    (h : ¬(old ≠ [] ∧ old <+: (c :: rest))) :
    pyReplace old new (c :: rest) = c :: pyReplace old new rest := by
  show repAux old new 0 (c :: rest) = c :: repAux old new 0 rest
  rw [repAux, if_neg h]

theorem pySplit_nil (old : List Char) : pySplit old [] = [[]] := rfl

theorem pySplit_pos (old s : List Char) (h0 : old ≠ []) (h : old <+: s) :
    pySplit old s = [] :: pySplit old (s.drop old.length) := by
  obtain ⟨u, rfl⟩ := h
  obtain ⟨c, old', rfl⟩ : ∃ c old', old = c :: old' :=
    match old, h0 with
    | c :: old', _ => ⟨c, old', rfl⟩
  show splitAux (c :: old') 0 (c :: (old' ++ u)) = _
  rw [splitAux]
  rw [if_pos ⟨h0, ⟨u, by simp⟩⟩]
  have hskip : splitAux (c :: old') old'.length (old' ++ u)
      = splitAux (c :: old') 0 u := splitAux_skip _ _ _
  simp only [List.length_cons, Nat.add_sub_cancel, hskip]
  have hd : List.drop (old'.length + 1) (c :: old' ++ u) = u := by
    rw [List.cons_append, List.drop_succ_cons]; exact List.drop_left _ _
  rw [hd]
  rfl

theorem pySplit_ne_nil (old s : List Char) : pySplit old s ≠ [] := by
  induction s with
  | nil => simp [pySplit, splitAux]
  | cons c rest ih =>
    show splitAux old 0 (c :: rest) ≠ []
    rw [splitAux]
    by_cases h : old ≠ [] ∧ old <+: (c :: rest)
    · rw [if_pos h]; simp
    · rw [if_neg h]
      rcases hr : splitAux old 0 rest with _ | ⟨p, ps⟩ <;> simp

theorem pySplit_neg (old : List Char) (c : Char) (rest : List Char)
    (h : ¬(old ≠ [] ∧ old <+: (c :: rest))) :
    ∃ p ps, pySplit old rest = p :: ps ∧ pySplit old (c :: rest) = (c :: p) :: ps := by
  rcases hr : pySplit old rest with _ | ⟨p, ps⟩
  · exact absurd hr (pySplit_ne_nil old rest)
  · refine ⟨p, ps, rfl, ?_⟩
    show splitAux old 0 (c :: rest) = (c :: p) :: ps
    rw [splitAux, if_neg h]
    rw [show splitAux old 0 rest = p :: ps from hr]

theorem replace_eq_join (old new s : List Char) :
    pyReplace old new s = joinSep new (pySplit old s) := by
  rcases s with _ | ⟨c, rest⟩
  · rw [pyReplace_nil, pySplit_nil]; rfl
  · by_cases h : old ≠ [] ∧ old <+: (c :: rest)
    · rw [pyReplace_pos old new _ h.1 h.2, pySplit_pos old _ h.1 h.2]
      have ih := replace_eq_join old new ((c :: rest).drop old.length)
      rcases hps : pySplit old ((c :: rest).drop old.length) with _ | ⟨p, ps⟩
      · exact absurd hps (pySplit_ne_nil _ _)
      · rw [ih, hps, joinSep_pair]
        simp
    · rw [pyReplace_neg old new c rest h]
      obtain ⟨p, ps, h1, h2⟩ := pySplit_neg old c rest h
      rw [h2, joinSep_cons_head, ← h1, ← replace_eq_join old new rest]
termination_by s.length
decreasing_by
  · simp only [List.length_drop, List.length_cons]
    have := List.length_pos.mpr h.1
    omega
  · simp

theorem join_split (old s : List Char) : joinSep old (pySplit old s) = s := by
  rcases s with _ | ⟨c, rest⟩
  · rw [pySplit_nil]; rfl
  · by_cases h : old ≠ [] ∧ old <+: (c :: rest)
    · obtain ⟨u, hu⟩ := h.2
      have hdrop : (c :: rest).drop old.length = u := by
        rw [← hu]; exact List.drop_left _ _
      rw [pySplit_pos old _ h.1 h.2]
      have ih := join_split old ((c :: rest).drop old.length)
      rcases hps : pySplit old ((c :: rest).drop old.length) with _ | ⟨p, ps⟩
      · exact absurd hps (pySplit_ne_nil _ _)
      · rw [hps] at ih
        rw [joinSep_pair, ih, hdrop]
        simpa using hu
    · obtain ⟨p, ps, h1, h2⟩ := pySplit_neg old c rest h
      rw [h2, joinSep_cons_head, ← h1, join_split old rest]
termination_by s.length
decreasing_by
  · simp only [List.length_drop, List.length_cons]
    have := List.length_pos.mpr h.1
    omega
  · simp

theorem mem_join_isInfix (sep : List Char) (ps : List (List Char)) (p : List Char)
    (hp : p ∈ ps) : p <:+: joinSep sep ps := by
  induction ps with
  | nil => simp at hp
  | cons q qs ih =>
    rcases qs with _ | ⟨r, rs⟩
    · simp at hp
      subst hp
      exact List.infix_refl _
    · rcases List.mem_cons.mp hp with h | h
      · subst h
        rw [joinSep_pair, List.append_assoc]
        exact ( List.prefix_append p _).isInfix
      · exact (ih h).trans (by rw [joinSep_pair]; exact ( List.suffix_append _ _).isInfix)

theorem pySplit_no_occ (old s : List Char) (h0 : old ≠ []) :
    (∀ p ∈ pySplit old s, ¬ old <:+: p) ∧
      ∃ p ps, pySplit old s = p :: ps ∧ p <+: s := by
  rcases s with _ | ⟨c, rest⟩
  · rw [pySplit_nil]
    constructor
    · intro p hp
      simp at hp
      subst hp
      simp [ List.infix_nil, h0]
    · exact ⟨[], [], rfl, List.nil_prefix⟩
  · by_cases h : old ≠ [] ∧ old <+: (c :: rest)
    · rw [pySplit_pos old _ h.1 h.2]
      have ih := pySplit_no_occ old ((c :: rest).drop old.length) h0
      constructor
      · intro p hp
        rcases List.mem_cons.mp hp with h | h
        · subst h
          simp [ List.infix_nil, h0]
        · exact ih.1 p h
      · exact ⟨[], _, rfl, List.nil_prefix⟩
    · obtain ⟨p, ps, h1, h2⟩ := pySplit_neg old c rest h
      have ih := pySplit_no_occ old rest h0
      obtain ⟨q, qs, hqs, hq⟩ := ih.2
      rw [h1] at hqs
      obtain ⟨rfl, rfl⟩ : p = q ∧ ps = qs := by
        injection hqs with hh1 hh2
        exact ⟨hh1, hh2⟩
      rw [h2]
      constructor
      · intro x hx
        rcases List.mem_cons.mp hx with hh | hh
        · subst hh
          intro hcon
          rcases List.infix_cons_iff.mp hcon with hc | hc
          · exact h ⟨h0, hc.trans ( List.cons_prefix_cons.mpr ⟨rfl, hq⟩)⟩
          · exact ih.1 p (h1 ▸ List.mem_cons_self p ps) hc
        · exact ih.1 x (h1 ▸ List.mem_cons_of_mem p hh)
      · exact ⟨c :: p, ps, rfl, List.cons_prefix_cons.mpr ⟨rfl, hq⟩⟩
termination_by s.length
decreasing_by
  · simp only [List.length_drop, List.length_cons]
    have := List.length_pos.mpr h.1
    omega
  · simp

theorem pyReplace_no_occ (old new s : List Char) (h : ¬ old <:+: s) :
    pyReplace old new s = s := by
  rcases s with _ | ⟨c, rest⟩
  · exact pyReplace_nil old new
  · have hg : ¬(old ≠ [] ∧ old <+: (c :: rest)) := by
      rintro ⟨-, hpre⟩
      exact h hpre.isInfix
    have hrest : ¬ old <:+: rest := by
      intro hr
      exact h (hr.trans ( List.suffix_cons c rest).isInfix)
    rw [pyReplace_neg old new c rest hg, pyReplace_no_occ old new rest hrest]

theorem pyReplace_length (old new s : List Char) (hlen : old.length = new.length) :
    (pyReplace old new s).length = s.length := by
  rcases s with _ | ⟨c, rest⟩
  · rw [pyReplace_nil]
  · by_cases h : old ≠ [] ∧ old <+: (c :: rest)
    · rw [pyReplace_pos old new _ h.1 h.2]
      have hle := h.2.length_le
      have ih := pyReplace_length old new ((c :: rest).drop old.length) hlen
      simp only [List.length_append, ih, List.length_drop]
      omega
    · rw [pyReplace_neg old new c rest h]
      simp only [List.length_cons, pyReplace_length old new rest hlen]
termination_by s.length
decreasing_by
  · simp only [List.length_drop, List.length_cons]
    have := List.length_pos.mpr h.1
    omega
  · simp

/-- `l` has no nontrivial border: no proper nonempty prefix of `l` is also a
suffix of `l`.  All the replacement strings `fill:#<color>;` built from the
color table satisfy this (they start with `f` and their only `;` is last). -/
def noBorder (l : List Char) : Prop :=
  ∀ k, k < l.length → 0 < k → l.take k ≠ l.drop (l.length - k)

theorem noBorder_no_cross (nu p t : List Char) (hb : noBorder nu)
    (hp : ¬ nu <:+: p) (hne : p ≠ []) : ¬ nu <+: (p ++ (nu ++ t)) := by
  intro h
  by_cases hle : nu.length ≤ p.length
  · have h1 : nu = (p ++ (nu ++ t)).take nu.length := List.prefix_iff_eq_take.mp h
    have h2 : (p ++ (nu ++ t)).take nu.length = p.take nu.length := by
      rw [List.take_append_eq_append_take, Nat.sub_eq_zero_of_le hle]
      simp
    have h3 : nu = p.take nu.length := h1.trans h2
    have h4 : nu <+: p := by
      rw [h3]
      exact List.take_prefix _ _
    exact hp h4.isInfix
  · push_neg at hle
    have hm : 0 < p.length := List.length_pos.mpr hne
    obtain ⟨u, hu⟩ := h
    have hp_eq : nu.take p.length = p := by
      have h5 := congrArg (List.take p.length) hu
      rw [List.take_append_eq_append_take, List.take_append_eq_append_take,
        Nat.sub_self, Nat.sub_eq_zero_of_le (le_of_lt hle)] at h5
      simpa using h5
    have hd : nu.drop p.length ++ u = nu ++ t := by
      have h6 := congrArg (List.drop p.length) hu
      rw [List.drop_append_eq_append_drop, List.drop_append_eq_append_drop,
        Nat.sub_self, Nat.sub_eq_zero_of_le (le_of_lt hle)] at h6
      simpa using h6
    have hk : nu.drop p.length = nu.take (nu.length - p.length) := by
      have h7 := congrArg (List.take (nu.length - p.length)) hd
      rw [List.take_append_eq_append_take, List.take_append_eq_append_take] at h7
      have hlen : (nu.drop p.length).length = nu.length - p.length :=
        List.length_drop _ _
      rw [← hlen, List.take_length, hlen, Nat.sub_self] at h7
      simpa using h7
    have hborder := hb (nu.length - p.length) (by omega) (by omega)
    rw [Nat.sub_sub_self (le_of_lt hle)] at hborder
    exact hborder hk.symm

theorem pyReplace_cross (nu back p t : List Char) (hn : nu ≠ [])
    (hb : noBorder nu) (hp : ¬ nu <:+: p) :
    pyReplace nu back (p ++ (nu ++ t)) = p ++ (back ++ pyReplace nu back t) := by
  induction p with
  | nil =>
    simp only [List.nil_append]
    rw [pyReplace_pos nu back _ hn ( List.prefix_append nu t), List.drop_left]
  | cons a p ih =>
    have hp' : ¬ nu <:+: p := fun hx => hp (hx.trans ( List.suffix_cons a p).isInfix)
    have hg : ¬(nu ≠ [] ∧ nu <+: (a :: (p ++ (nu ++ t)))) := by
      rintro ⟨-, hpre⟩
      exact noBorder_no_cross nu (a :: p) t hb hp (by simp) (by simpa using hpre)
    rw [List.cons_append, pyReplace_neg nu back a _ hg, ih hp', List.cons_append]

theorem pyReplace_join (nu back : List Char) (hn : nu ≠ []) (hb : noBorder nu)
    (ps : List (List Char)) (hps : ∀ p ∈ ps, ¬ nu <:+: p) :
    pyReplace nu back (joinSep nu ps) = joinSep back ps := by
  induction ps with
  | nil => rfl
  | cons q qs ih =>
    rcases qs with _ | ⟨r, rs⟩
    · exact pyReplace_no_occ nu back q (hps q (by simp))
    · rw [joinSep_pair, List.append_assoc,
        pyReplace_cross nu back q (joinSep nu (r :: rs)) hn hb (hps q (by simp)),
        ih (fun p hp => hps p (List.mem_cons_of_mem q hp)),
        joinSep_pair, List.append_assoc]

theorem pyReplace_roundtrip (old nu s : List Char)
    (hn : nu ≠ []) (hb : noBorder nu) (hs : ¬ nu <:+: s) :
    pyReplace nu old (pyReplace old nu s) = s := by
  have hparts : ∀ p ∈ pySplit old s, ¬ nu <:+: p := by
    intro p hp hcon
    exact hs (hcon.trans ((join_split old s) ▸ mem_join_isInfix old (pySplit old s) p hp))
  rw [replace_eq_join old nu s, pyReplace_join nu old hn hb (pySplit old s) hparts,
    join_split]

theorem pyReplace_self (old s : List Char) : pyReplace old old s = s := by
  rw [replace_eq_join, join_split]

/-- The `COLORS` dict of the script, in insertion order (Python dicts
preserve it): socket-type name to 6-hex-digit color. -/
def COLORS : List (String × String) :=
  [("action", "cc4c4c"), ("animation", "cccccc"), ("array", "cc6600"),
   ("bool", "cca6d6"), ("color", "c7c729"), ("dynamic", "63c763"),
   ("float", "a1a1a1"), ("integer", "0f8526"), ("object", "268cbf"),
   ("string", "70b2ff"), ("vector", "6363c7")]

/-- The marker substring replaced in the template. -/
def marker : List Char := "fill:#cc4c4c;".toList

/-- The replacement text built from a color. -/
def fillOf (color : String) : List Char := ("fill:#" ++ color ++ ";").toList

/-- Content written for one color: the template text with the marker
replaced, as in the call to `replace` in the script. -/
def applyColor (color : String) (t : List Char) : List Char :=
  pyReplace marker (fillOf color) t

/-- Output file name for a socket type. -/
def outName (socket_type : String) : String :=
  "sockettype_" ++ socket_type ++ ".svg"

/-- The template file name read by `main`. -/
def templateName : String := "sockettype_template.svg"

/-- The (file name, content) pairs a run derives from template text `t`,
one per `COLORS` entry, in table order. -/
def outputs (t : List Char) : List (String × List Char) :=
  COLORS.map (fun p => (outName p.1, applyColor p.2 t))

/-- A file system: an association list from file names to text contents. -/
abbrev FileSys := List (String × List Char)

/-- Look a file up. -/
def getFile : FileSys → String → Option (List Char)
  | [], _ => none
  | (m, d) :: fs, n => if m = n then some d else getFile fs n

/-- Create or overwrite a file. -/
def setFile : FileSys → String → List Char → FileSys
  | [], n, c => [(n, c)]
  | (m, d) :: fs, n, c => if m = n then (m, c) :: fs else (m, d) :: setFile fs n c

/-- The write loop of `main`: one output file per entry, in order.  `ok`
says which file names are writable; the first unwritable output aborts the
run (the uncaught `OSError`), leaving the files written so far in place and
reporting the failing name. -/
def runAll (ok : String → Bool) (t : List Char) :
    List (String × String) → FileSys → FileSys × Option String
  | [], fs => (fs, none)
  | (socket_type, color) :: rest, fs =>
    if ok (outName socket_type) then
      runAll ok t rest (setFile fs (outName socket_type) (applyColor color t))
    else
      (fs, some (outName socket_type))

/-- `main`: read the template in full (failing with the template's name if
it is absent, before any write happens), then write every output. -/
def run (ok : String → Bool) (fs : FileSys) : FileSys × Option String :=
  match getFile fs templateName with
  | none => (fs, some templateName)
  | some t => runAll ok t COLORS fs

/-- Writing a list of entries one after the other, the pure effect of a
completed loop. -/
def writeList (t : List Char) (entries : List (String × String)) (fs : FileSys) :
    FileSys :=
  entries.foldl (fun a p => setFile a (outName p.1) (applyColor p.2 t)) fs

instance noBorder_decidable (l : List Char) : Decidable (noBorder l) :=
  inferInstanceAs (Decidable (∀ k, k < l.length → 0 < k → l.take k ≠ l.drop (l.length - k)))

theorem getFile_setFile_self (fs : FileSys) (n : String) (c : List Char) :
    getFile (setFile fs n c) n = some c := by
  induction fs with
  | nil => simp [setFile, getFile]
  | cons hd fs ih =>
    obtain ⟨m, d⟩ := hd
    by_cases h : m = n
    · simp [setFile, getFile, h]
    · simp [setFile, getFile, h, ih]

theorem getFile_setFile_ne (fs : FileSys) (n m : String) (c : List Char)
    (h : n ≠ m) : getFile (setFile fs n c) m = getFile fs m := by
  induction fs with
  | nil => simp [setFile, getFile, h]
  | cons hd fs ih =>
    obtain ⟨k, d⟩ := hd
    by_cases hk : k = n
    · subst hk
      simp [setFile, getFile, h]
    · simp [setFile, getFile, hk, ih]

theorem setFile_eq_of_getFile (fs : FileSys) (n : String) (c : List Char)
    (h : getFile fs n = some c) : setFile fs n c = fs := by
  induction fs with
  | nil => simp [getFile] at h
  | cons hd fs ih =>
    obtain ⟨m, d⟩ := hd
    by_cases hm : m = n
    · subst hm
      simp [getFile] at h
      simp [setFile, h]
    · simp [getFile, hm] at h
      simp [setFile, hm, ih h]

theorem runAll_preserve (ok : String → Bool) (t : List Char)
    (entries : List (String × String)) (fs : FileSys) (n : String)
    (h : n ∉ entries.map (fun p => outName p.1)) :
    getFile (runAll ok t entries fs).1 n = getFile fs n := by
  induction entries generalizing fs with
  | nil => rfl
  | cons hd rest ih =>
    obtain ⟨st, col⟩ := hd
    simp only [List.map_cons, List.mem_cons, not_or] at h
    by_cases hok : ok (outName st) = true
    · show getFile (runAll ok t ((st, col) :: rest) fs).1 n = getFile fs n
      rw [runAll, if_pos hok, ih _ h.2, getFile_setFile_ne _ _ _ _ (fun he => h.1 he.symm)]
    · show getFile (runAll ok t ((st, col) :: rest) fs).1 n = getFile fs n
      rw [runAll, if_neg hok]

theorem runAll_success_ok (ok : String → Bool) (t : List Char)
    (entries : List (String × String)) (fs fs2 : FileSys)
    (h : runAll ok t entries fs = (fs2, none)) :
    ∀ p ∈ entries, ok (outName p.1) = true := by
  induction entries generalizing fs with
  | nil => simp
  | cons hd rest ih =>
    obtain ⟨st, col⟩ := hd
    intro p hp
    by_cases hok : ok (outName st) = true
    · rw [runAll, if_pos hok] at h
      rcases List.mem_cons.mp hp with rfl | hp'
      · exact hok
      · exact ih _ h p hp'
    · rw [runAll, if_neg hok] at h
      simp at h

theorem runAll_success_written (ok : String → Bool) (t : List Char)
    (entries : List (String × String)) (fs fs2 : FileSys)
    (h : runAll ok t entries fs = (fs2, none))
    (hnd : (entries.map (fun p => outName p.1)).Nodup) :
    ∀ p ∈ entries, getFile fs2 (outName p.1) = some (applyColor p.2 t) := by
  induction entries generalizing fs with
  | nil => simp
  | cons hd rest ih =>
    obtain ⟨st, col⟩ := hd
    simp only [List.map_cons, List.nodup_cons] at hnd
    intro p hp
    by_cases hok : ok (outName st) = true
    · rw [runAll, if_pos hok] at h
      rcases List.mem_cons.mp hp with rfl | hp'
      · show getFile fs2 (outName st) = some (applyColor col t)
        have hpres := runAll_preserve ok t rest
          (setFile fs (outName st) (applyColor col t)) (outName st) hnd.1
        rw [h] at hpres
        rw [hpres, getFile_setFile_self]
      · exact ih _ h hnd.2 p hp'
    · rw [runAll, if_neg hok] at h
      simp at h

theorem runAll_stable (ok : String → Bool) (t : List Char)
    (entries : List (String × String)) (fs : FileSys)
    (hok : ∀ p ∈ entries, ok (outName p.1) = true)
    (hhave : ∀ p ∈ entries, getFile fs (outName p.1) = some (applyColor p.2 t)) :
    runAll ok t entries fs = (fs, none) := by
  induction entries with
  | nil => rfl
  | cons hd rest ih =>
    obtain ⟨st, col⟩ := hd
    rw [runAll, if_pos (hok (st, col) (List.mem_cons_self _ _)),
      setFile_eq_of_getFile _ _ _ (hhave (st, col) (List.mem_cons_self _ _))]
    exact ih (fun p hp => hok p (List.mem_cons_of_mem _ hp))
      (fun p hp => hhave p (List.mem_cons_of_mem _ hp))

theorem runAll_success_exists (ok : String → Bool) (t : List Char)
    (entries : List (String × String)) (fs : FileSys)
    (hok : ∀ p ∈ entries, ok (outName p.1) = true) :
    ∃ fs2, runAll ok t entries fs = (fs2, none) := by
  induction entries generalizing fs with
  | nil => exact ⟨fs, rfl⟩
  | cons hd rest ih =>
    obtain ⟨st, col⟩ := hd
    rw [runAll, if_pos (hok (st, col) (List.mem_cons_self _ _))]
    exact ih _ (fun p hp => hok p (List.mem_cons_of_mem _ hp))

theorem writeList_nil (t : List Char) (fs : FileSys) : writeList t [] fs = fs := rfl

theorem writeList_cons (t : List Char) (st col : String)
    (entries : List (String × String)) (fs : FileSys) :
    writeList t ((st, col) :: entries) fs
      = writeList t entries (setFile fs (outName st) (applyColor col t)) := rfl

theorem writeList_preserve (t : List Char) (entries : List (String × String))
    (fs : FileSys) (n : String) (h : n ∉ entries.map (fun p => outName p.1)) :
    getFile (writeList t entries fs) n = getFile fs n := by
  induction entries generalizing fs with
  | nil => rfl
  | cons hd rest ih =>
    obtain ⟨st, col⟩ := hd
    simp only [List.map_cons, List.mem_cons, not_or] at h
    rw [writeList_cons, ih _ h.2, getFile_setFile_ne _ _ _ _ (fun he => h.1 he.symm)]

theorem writeList_get (t : List Char) (entries : List (String × String))
    (fs : FileSys) (hnd : (entries.map (fun p => outName p.1)).Nodup) :
    ∀ p ∈ entries, getFile (writeList t entries fs) (outName p.1)
      = some (applyColor p.2 t) := by
  induction entries generalizing fs with
  | nil => simp
  | cons hd rest ih =>
    obtain ⟨st, col⟩ := hd
    simp only [List.map_cons, List.nodup_cons] at hnd
    intro p hp
    rcases List.mem_cons.mp hp with rfl | hp'
    · rw [writeList_cons, writeList_preserve _ _ _ _ hnd.1, getFile_setFile_self]
    · rw [writeList_cons]
      exact ih _ hnd.2 p hp'

theorem runAll_append_ok (ok : String → Bool) (t : List Char)
    (pre rest : List (String × String)) (fs : FileSys)
    (hpre : ∀ p ∈ pre, ok (outName p.1) = true) :
    runAll ok t (pre ++ rest) fs = runAll ok t rest (writeList t pre fs) := by
  induction pre generalizing fs with
  | nil => rfl
  | cons hd pre ih =>
    obtain ⟨st, col⟩ := hd
    rw [List.cons_append, runAll, if_pos (hpre (st, col) (List.mem_cons_self _ _)),
      writeList_cons]
    exact ih _ (fun p hp => hpre p (List.mem_cons_of_mem _ hp))

theorem run_some (ok : String → Bool) (fs : FileSys) (t : List Char)
    (ht : getFile fs templateName = some t) :
    run ok fs = runAll ok t COLORS fs := by
  unfold run
  rw [ht]

theorem run_none (ok : String → Bool) (fs : FileSys)
    (ht : getFile fs templateName = none) :
    run ok fs = (fs, some templateName) := by
  unfold run
  rw [ht]

/-- C1: for every entry `(name, color)` in the Color Table, after a
successful run the file `sockettype_<name>.svg` exists and its content
equals the template content with every occurrence of the marker substring
`fill:#cc4c4c;` replaced by `fill:#<color>;` — all occurrences, plain
substring substitution, non-marker content unchanged (the parts between
occurrences are carried over verbatim and contain no marker). -/
theorem C1_output_exists_and_content (socket_type color : String)
    (h : (socket_type, color) ∈ COLORS) (ok : String → Bool)
    (fs fs2 : FileSys) (t : List Char)
    (ht : getFile fs templateName = some t)
    (hrun : run ok fs = (fs2, none)) :
    getFile fs2 (outName socket_type) = some (applyColor color t) ∧
      ∃ parts, t = joinSep marker parts ∧
        applyColor color t = joinSep (fillOf color) parts ∧
        ∀ p ∈ parts, ¬ marker <:+: p := by
  rw [run_some ok fs t ht] at hrun
  have hnd : (COLORS.map (fun p => outName p.1)).Nodup := by decide
  exact ⟨runAll_success_written ok t COLORS fs fs2 hrun hnd (socket_type, color) h,
    pySplit marker t, (join_split marker t).symm,
    replace_eq_join marker (fillOf color) t,
    fun p hp => (pySplit_no_occ marker t (by decide)).1 p hp⟩

theorem C1_witness :
    (("bool", "cca6d6") ∈ COLORS ∧
      getFile [(templateName, "fill:#cc4c4c;".toList)] templateName
        = some "fill:#cc4c4c;".toList ∧
      run (fun _ => true) [(templateName, "fill:#cc4c4c;".toList)]
        = ([(templateName, "fill:#cc4c4c;".toList)]
            ++ COLORS.map (fun p => (outName p.1, applyColor p.2 "fill:#cc4c4c;".toList)),
           none)) ∧
      getFile ([(templateName, "fill:#cc4c4c;".toList)]
          ++ COLORS.map (fun p => (outName p.1, applyColor p.2 "fill:#cc4c4c;".toList)))
          (outName "bool")
        = some (applyColor "cca6d6" "fill:#cc4c4c;".toList) ∧
      ∃ parts, "fill:#cc4c4c;".toList = joinSep marker parts ∧
        applyColor "cca6d6" "fill:#cc4c4c;".toList = joinSep (fillOf "cca6d6") parts ∧
        ∀ p ∈ parts, ¬ marker <:+: p :=
  ⟨⟨by decide, by decide, by decide⟩,
    C1_output_exists_and_content "bool" "cca6d6" (by decide) (fun _ => true)
      [(templateName, "fill:#cc4c4c;".toList)] _ _ (by decide) (by decide)⟩

/-- C2: a successful run produces exactly as many output files as there are
Color Table entries (11), with pairwise distinct names, each file equal to
the template except that every marker occurrence carries the entry's
substituted color value. -/
theorem C2_count_invariant (t : List Char) :
    (outputs t).length = COLORS.length ∧ COLORS.length = 11 ∧
      ((outputs t).map Prod.fst).Nodup ∧
      ∀ pr ∈ outputs t, ∃ socket_type color,
        (socket_type, color) ∈ COLORS ∧ pr.1 = outName socket_type ∧
        ∃ parts, t = joinSep marker parts ∧
          pr.2 = joinSep (fillOf color) parts ∧
          ∀ p ∈ parts, ¬ marker <:+: p := by
  refine ⟨by simp [outputs], by decide, ?_, ?_⟩
  · have hmap : (outputs t).map Prod.fst = COLORS.map (fun p => outName p.1) := by
      simp [outputs]
    rw [hmap]
    decide
  · intro pr hpr
    obtain ⟨⟨st, col⟩, hmem, rfl⟩ := List.mem_map.mp hpr
    exact ⟨st, col, hmem, rfl, pySplit marker t, (join_split marker t).symm,
      replace_eq_join marker (fillOf col) t,
      fun p hp => (pySplit_no_occ marker t (by decide)).1 p hp⟩

/-- C3, counterexample: the claimed round trip fails for the template
`fill:#cccccc;` with the table entry `("animation", "cccccc")`: the forward
substitution leaves the template unchanged (no marker occurs), and the
backward replacement then rewrites the pre-existing `fill:#cccccc;` into
`fill:#cc4c4c;`, which differs from the original template. -/
theorem C3_counterexample :
    ("animation", "cccccc") ∈ COLORS ∧
      pyReplace (fillOf "cccccc") marker
        (applyColor "cccccc" "fill:#cccccc;".toList) ≠ "fill:#cccccc;".toList := by
  decide

/-- C3, amended: for every Color Table entry and every template in which
the replacement string `fill:#<color>;` either equals the marker or does
not occur, replacing every occurrence of `fill:#<color>;` in the entry's
output back with `fill:#cc4c4c;` reproduces the original template exactly. -/
theorem C3_roundtrip_amended (socket_type color : String)
    (h : (socket_type, color) ∈ COLORS) (t : List Char)
    (hocc : fillOf color = marker ∨ ¬ fillOf color <:+: t) :
    pyReplace (fillOf color) marker (applyColor color t) = t := by
  rcases hocc with hc | hc
  · rw [applyColor, hc, pyReplace_self, pyReplace_self]
  · have hprop : fillOf color ≠ [] ∧ noBorder (fillOf color) :=
      (by decide : ∀ pr ∈ COLORS, fillOf pr.2 ≠ [] ∧ noBorder (fillOf pr.2))
        (socket_type, color) h
    exact pyReplace_roundtrip marker (fillOf color) t hprop.1 hprop.2 hc

theorem C3_roundtrip_witness :
    (("bool", "cca6d6") ∈ COLORS ∧
      (fillOf "cca6d6" = marker ∨ ¬ fillOf "cca6d6" <:+: "fill:#cc4c4c;".toList)) ∧
      pyReplace (fillOf "cca6d6") marker
        (applyColor "cca6d6" "fill:#cc4c4c;".toList) = "fill:#cc4c4c;".toList :=
  ⟨⟨by decide, Or.inr (by decide)⟩,
    C3_roundtrip_amended "bool" "cca6d6" (by decide) _ (Or.inr (by decide))⟩

/-- C4: the operation is a pure function of the template text and the
table: after a successful run, running again on the resulting file system
(template unchanged) succeeds and leaves every file byte-identical. -/
theorem C4_pure_rerun (ok : String → Bool) (fs fs2 : FileSys)
    (h : run ok fs = (fs2, none)) : run ok fs2 = (fs2, none) := by
  rcases ht : getFile fs templateName with _ | t
  · rw [run_none ok fs ht] at h
    simp at h
  · rw [run_some ok fs t ht] at h
    have hok := runAll_success_ok ok t COLORS fs fs2 h
    have hnd : (COLORS.map (fun p => outName p.1)).Nodup := by decide
    have hw := runAll_success_written ok t COLORS fs fs2 h hnd
    have htpl : getFile fs2 templateName = some t := by
      have hpres := runAll_preserve ok t COLORS fs templateName (by decide)
      rw [h] at hpres
      rw [hpres, ht]
    rw [run_some ok fs2 t htpl]
    exact runAll_stable ok t COLORS fs2 hok hw

theorem C4_witness :
    run (fun _ => true) [(templateName, [])]
        = ([(templateName, [])] ++ COLORS.map (fun p => (outName p.1, [])), none) ∧
      run (fun _ => true)
          ([(templateName, [])] ++ COLORS.map (fun p => (outName p.1, [])))
        = ([(templateName, [])] ++ COLORS.map (fun p => (outName p.1, [])), none) :=
  ⟨by decide, C4_pure_rerun (fun _ => true) [(templateName, [])] _ (by decide)⟩

/-- C5: if the template contains the marker substring zero times, a run
with writable outputs still succeeds, and every output file is byte-identical
to the template (no-op substitution). -/
theorem C5_zero_marker_noop (t : List Char) (hocc : ¬ marker <:+: t)
    (ok : String → Bool) (fs : FileSys)
    (ht : getFile fs templateName = some t)
    (hok : ∀ p ∈ COLORS, ok (outName p.1) = true) :
    (run ok fs).2 = none ∧
      ∀ p ∈ COLORS, getFile (run ok fs).1 (outName p.1) = some t := by
  obtain ⟨fs2, hfs2⟩ := runAll_success_exists ok t COLORS fs hok
  have hrun : run ok fs = (fs2, none) := by
    rw [run_some ok fs t ht]
    exact hfs2
  have hnd : (COLORS.map (fun p => outName p.1)).Nodup := by decide
  have hw := runAll_success_written ok t COLORS fs fs2 hfs2 hnd
  rw [hrun]
  refine ⟨rfl, fun p hp => ?_⟩
  have hthis := hw p hp
  rwa [applyColor, pyReplace_no_occ marker (fillOf p.2) t hocc] at hthis

theorem C5_witness :
    (¬ marker <:+: "x".toList ∧
      getFile [(templateName, "x".toList)] templateName = some "x".toList ∧
      ∀ p ∈ COLORS, (fun _ => true : String → Bool) (outName p.1) = true) ∧
      (run (fun _ => true) [(templateName, "x".toList)]).2 = none ∧
      ∀ p ∈ COLORS,
        getFile (run (fun _ => true) [(templateName, "x".toList)]).1 (outName p.1)
          = some "x".toList :=
  ⟨⟨by decide, by decide, by decide⟩,
    C5_zero_marker_noop "x".toList (by decide) (fun _ => true)
      [(templateName, "x".toList)] (by decide) (by decide)⟩

/-- C6: if the template file is missing, the run fails reporting the
template's name, and the file system is unchanged: no output file is
created (the template is read in full before the first write). -/
theorem C6_missing_template (ok : String → Bool) (fs : FileSys)
    (h : getFile fs templateName = none) :
    run ok fs = (fs, some templateName) := run_none ok fs h

theorem C6_witness :
    getFile [] templateName = none ∧
      run (fun _ => true) [] = ([], some templateName) :=
  ⟨rfl, C6_missing_template (fun _ => true) [] rfl⟩

/-- C7: if the write for some entry fails, the run aborts immediately,
reporting that entry's file name, and the output files already written for
the earlier entries remain in the file system with their substituted
content (no rollback). -/
theorem C7_abort_keeps_earlier (ok : String → Bool) (fs : FileSys) (t : List Char)
    (pre post : List (String × String)) (nm col : String)
    (hC : COLORS = pre ++ (nm, col) :: post)
    (ht : getFile fs templateName = some t)
    (hpre : ∀ p ∈ pre, ok (outName p.1) = true)
    (hfail : ok (outName nm) = false) :
    run ok fs = (writeList t pre fs, some (outName nm)) ∧
      ∀ p ∈ pre, getFile (writeList t pre fs) (outName p.1)
        = some (applyColor p.2 t) := by
  have h1 : run ok fs = runAll ok t ((nm, col) :: post) (writeList t pre fs) := by
    rw [run_some ok fs t ht, hC, runAll_append_ok ok t pre _ fs hpre]
  have h2 : runAll ok t ((nm, col) :: post) (writeList t pre fs)
      = (writeList t pre fs, some (outName nm)) := by
    rw [runAll, if_neg (by simp [hfail])]
  have hndC : (COLORS.map (fun p => outName p.1)).Nodup := by decide
  have hnd : (pre.map (fun p => outName p.1)).Nodup := by
    rw [hC, List.map_append] at hndC
    exact hndC.of_append_left
  exact ⟨h1.trans h2, writeList_get t pre fs hnd⟩

theorem C7_witness :
    (COLORS = [("action", "cc4c4c"), ("animation", "cccccc")]
        ++ ("array", "cc6600")
          :: [("bool", "cca6d6"), ("color", "c7c729"), ("dynamic", "63c763"),
              ("float", "a1a1a1"), ("integer", "0f8526"), ("object", "268cbf"),
              ("string", "70b2ff"), ("vector", "6363c7")] ∧
      getFile [(templateName, [])] templateName = some [] ∧
      (∀ p ∈ [(("action" : String), ("cc4c4c" : String)), ("animation", "cccccc")],
        (fun n => n != outName "array") (outName p.1) = true) ∧
      (fun n => n != outName "array") (outName "array") = false) ∧
      run (fun n => n != outName "array") [(templateName, [])]
          = (writeList [] [(("action" : String), ("cc4c4c" : String)), ("animation", "cccccc")]
              [(templateName, [])],
             some (outName "array")) ∧
      ∀ p ∈ [(("action" : String), ("cc4c4c" : String)), ("animation", "cccccc")],
        getFile (writeList []
            [(("action" : String), ("cc4c4c" : String)), ("animation", "cccccc")]
            [(templateName, [])]) (outName p.1)
          = some (applyColor p.2 []) :=
  ⟨⟨by decide, by decide, by decide, by decide⟩,
    C7_abort_keeps_earlier (fun n => n != outName "array") [(templateName, [])] []
      [("action", "cc4c4c"), ("animation", "cccccc")]
      [("bool", "cca6d6"), ("color", "c7c729"), ("dynamic", "63c763"),
       ("float", "a1a1a1"), ("integer", "0f8526"), ("object", "268cbf"),
       ("string", "70b2ff"), ("vector", "6363c7")]
      "array" "cc6600" (by decide) (by decide) (by decide) (by decide)⟩

/-- C8: a run only ever creates or overwrites the files named
`sockettype_<name>.svg` for the table entries: every other file, the
template in particular, is unchanged; and on an all-writable run each
entry's file is overwritten unconditionally with its substituted content. -/
theorem C8_frame (ok : String → Bool) (fs : FileSys) (t : List Char)
    (ht : getFile fs templateName = some t) :
    (∀ n, n ∉ COLORS.map (fun p => outName p.1) →
        getFile (run ok fs).1 n = getFile fs n) ∧
      getFile (run ok fs).1 templateName = some t ∧
      ((∀ p ∈ COLORS, ok (outName p.1) = true) →
        ∀ p ∈ COLORS, getFile (run ok fs).1 (outName p.1)
          = some (applyColor p.2 t)) := by
  have hrw : run ok fs = runAll ok t COLORS fs := run_some ok fs t ht
  refine ⟨?_, ?_, ?_⟩
  · intro n hn
    rw [hrw]
    exact runAll_preserve ok t COLORS fs n hn
  · rw [hrw, runAll_preserve ok t COLORS fs templateName (by decide), ht]
  · intro hok p hp
    obtain ⟨fs2, hfs2⟩ := runAll_success_exists ok t COLORS fs hok
    rw [hrw, hfs2]
    exact runAll_success_written ok t COLORS fs fs2 hfs2 (by decide) p hp

theorem C8_witness :
    getFile [(templateName, "x".toList)] templateName = some "x".toList ∧
      ((∀ n, n ∉ COLORS.map (fun p => outName p.1) →
          getFile (run (fun _ => true) [(templateName, "x".toList)]).1 n
            = getFile [(templateName, "x".toList)] n) ∧
        getFile (run (fun _ => true) [(templateName, "x".toList)]).1 templateName
          = some "x".toList ∧
        ((∀ p ∈ COLORS, (fun _ => true : String → Bool) (outName p.1) = true) →
          ∀ p ∈ COLORS,
            getFile (run (fun _ => true) [(templateName, "x".toList)]).1 (outName p.1)
              = some (applyColor p.2 "x".toList))) :=
  ⟨by decide,
    C8_frame (fun _ => true) [(templateName, "x".toList)] "x".toList (by decide)⟩

/-- C9: for every template and every Color Table entry the output text has
exactly the length of the template text: the marker and every replacement
string `fill:#<color>;` have equal length, all table colors being 6 hex
digits. -/
theorem C9_length_invariant (socket_type color : String)
    (h : (socket_type, color) ∈ COLORS) (t : List Char) :
    (applyColor color t).length = t.length :=
  pyReplace_length marker (fillOf color) t
    ((by decide : ∀ pr ∈ COLORS, marker.length = (fillOf pr.2).length)
      (socket_type, color) h)

theorem C9_witness :
    ("bool", "cca6d6") ∈ COLORS ∧
      (applyColor "cca6d6" "a fill:#cc4c4c; b".toList).length
        = "a fill:#cc4c4c; b".toList.length :=
  ⟨by decide, C9_length_invariant "bool" "cca6d6" (by decide) _⟩

/-- C10: the output produced for the `"action"` entry is byte-identical to
the template for every template, since its table color `cc4c4c` equals the
marker's reference color, making the substitution the identity. -/
theorem C10_action_identity (t : List Char) :
    ("action", "cc4c4c") ∈ COLORS ∧ applyColor "cc4c4c" t = t := by
  refine ⟨by decide, ?_⟩
  have hm : fillOf "cc4c4c" = marker := by decide
  rw [applyColor, hm, pyReplace_self]
